import Mathlib

/-!
Verification of the font-rs TrueType renderer against its specification.

The Rust sources are shallowly embedded: byte buffers are `List Nat`
(each entry a byte, reduced mod 256 on access, mirroring `u8`), machine
integers are `Nat`/`Int` with explicit `% 2^w` where the source wraps,
`f32` values are modelled as rationals (`ℚ`, exact arithmetic, keeping
every definition executable), fallible operations return `Except`,
and a Rust panic (out-of-bounds index, `unwrap` of `None`, out-of-range
slice) is the `.error .panic` outcome.
-/

/-- Outcome of a Rust panic (index out of bounds, failed unwrap, bad slice). -/
inductive PanicE where
  | panic
  deriving DecidableEq, Repr

/-- `data[i]` on a `&[u8]`: panics when the index is out of bounds,
otherwise yields the byte (reduced mod 256, embedding `u8` into `Nat`). -/
def idx (data : List Nat) (i : Nat) : Except PanicE Nat :=
  if h : i < data.length then .ok (data.get ⟨i, h⟩ % 256) else .error .panic

/-- Source `get_u16` (font.rs): bounds check `off + 1 > data.len()` and a
big-endian combine `(data[off] << 8) | data[off+1]` of two `u8` values. -/
def get_u16 (data : List Nat) (off : Nat) : Except PanicE (Option Nat) :=
  if off + 1 > data.length then
    .ok none
  else
    match idx data off, idx data (off + 1) with
    | .ok b0, .ok b1 => .ok (some (b0 * 256 + b1))
    | .error e, _ => .error e
    | _, .error e => .error e

/-- Reinterpret a `u16` bit pattern as an `i16` (two's complement). -/
def toI16 (n : Nat) : Int :=
  if n % 65536 < 32768 then ((n % 65536 : Nat) : Int) else ((n % 65536 : Nat) : Int) - 65536

/-- Reinterpret an `i16` value as a `u16` bit pattern (`as u16` cast). -/
def u16ofI16 (x : Int) : Nat :=
  (x % 65536).toNat

/-- Source `get_i16` (font.rs): `get_u16(data, off).map(|x| x as i16)`. -/
def get_i16 (data : List Nat) (off : Nat) : Except PanicE (Option Int) :=
  match get_u16 data off with
  | .ok r => .ok (r.map toI16)
  | .error e => .error e

/-- Source `get_u32` (font.rs): bounds check `off + 3 > data.len()` and a
big-endian combine of four `u8` values. -/
def get_u32 (data : List Nat) (off : Nat) : Except PanicE (Option Nat) :=
  if off + 3 > data.length then
    .ok none
  else
    match idx data off, idx data (off + 1), idx data (off + 2), idx data (off + 3) with
    | .ok b0, .ok b1, .ok b2, .ok b3 =>
        .ok (some (b0 * 16777216 + b1 * 65536 + b2 * 256 + b3))
    | .error e, _, _, _ => .error e
    | _, .error e, _, _ => .error e
    | _, _, .error e, _ => .error e
    | _, _, _, .error e => .error e

/-- `get_u16(..).unwrap()`: a `None` result panics. -/
def unwrapU16 (data : List Nat) (off : Nat) : Except PanicE Nat :=
  match get_u16 data off with
  | .ok (some v) => .ok v
  | .ok none => .error .panic
  | .error e => .error e

/-- `get_i16(..).unwrap()`. -/
def unwrapI16 (data : List Nat) (off : Nat) : Except PanicE Int :=
  match get_i16 data off with
  | .ok (some v) => .ok v
  | .ok none => .error .panic
  | .error e => .error e

/-- `get_u32(..).unwrap()`. -/
def unwrapU32 (data : List Nat) (off : Nat) : Except PanicE Nat :=
  match get_u32 data off with
  | .ok (some v) => .ok v
  | .ok none => .error .panic
  | .error e => .error e

/-- Pure big-endian 16-bit read (total; used by specification-side
definitions, coincides with `get_u16` when `off + 2 ≤ data.length`). -/
def readU16 (data : List Nat) (off : Nat) : Nat :=
  (data.getD off 0 % 256) * 256 + (data.getD (off + 1) 0 % 256)

/-- Pure big-endian 32-bit read. -/
def readU32 (data : List Nat) (off : Nat) : Nat :=
  (data.getD off 0 % 256) * 16777216 + (data.getD (off + 1) 0 % 256) * 65536 +
    (data.getD (off + 2) 0 % 256) * 256 + (data.getD (off + 3) 0 % 256)

/-! ### Geometry (geom.rs), `f32` modelled as ℚ -/

/-- Source `Affine` (geom.rs): 2×3 transform, `f32` fields modelled as ℚ. -/
structure AffineM where
  a : ℚ
  b : ℚ
  c : ℚ
  d : ℚ
  e : ℚ
  f : ℚ
  deriving DecidableEq

/-- Source `Affine::concat` (geom.rs). -/
def AffineM.concat (t1 t2 : AffineM) : AffineM where
  a := t1.a * t2.a + t1.c * t2.b
  b := t1.b * t2.a + t1.d * t2.b
  c := t1.a * t2.c + t1.c * t2.d
  d := t1.b * t2.c + t1.d * t2.d
  e := t1.a * t2.e + t1.c * t2.f + t1.e
  f := t1.b * t2.e + t1.d * t2.f + t1.f

/-- Source `affine_pt` (geom.rs), on points as pairs of rationals. -/
def affine_pt (z : AffineM) (p : ℚ × ℚ) : ℚ × ℚ :=
  (z.a * p.1 + z.c * p.2 + z.e, z.b * p.1 + z.d * p.2 + z.f)

/-- Source `Point::lerp` (geom.rs). -/
def lerp (t : ℚ) (p0 p1 : ℚ × ℚ) : ℚ × ℚ :=
  (p0.1 + t * (p1.1 - p0.1), p0.2 + t * (p1.2 - p0.2))

/-! ### Rasterizer (raster.rs), `f32` modelled as ℚ -/

/-- Source `Raster` (raster.rs): width, height and the `f32` coverage
accumulator, modelled over ℚ. -/
structure RasterM where
  w : Nat
  h : Nat
  a : List ℚ

/-- Source `Raster::new`: zero accumulator of size `w * h + 4`. -/
def RasterM.new (w h : Nat) : RasterM :=
  ⟨w, h, List.replicate (w * h + 4) 0⟩

/-- One output byte of `get_bitmap`: `let y = acc.abs(); let y = if y < 1.0
{ y } else { 1.0 }; (255.0 * y) as u8` (the cast truncates a value in
[0, 255]). -/
def toByte (acc : ℚ) : Nat :=
  (⌊255 * (if |acc| < 1 then |acc| else 1)⌋).toNat

/-- The running-sum loop body of `get_bitmap`: `acc += a[i]` then emit a
byte, left to right. -/
def scanBytes (acc : ℚ) : List ℚ → List Nat
  | [] => []
  | v :: t => toByte (acc + v) :: scanBytes (acc + v) t

/-- Source `Raster::get_bitmap` (non-SSE path): map the accumulation over
indices `0 .. w*h`.  Defined via `take`; it agrees with the source
whenever `w * h ≤ a.length` (the `Raster::new` invariant), where the
source would otherwise panic. -/
def RasterM.get_bitmap (r : RasterM) : List Nat :=
  scanBytes 0 (r.a.take (r.w * r.h))

/-- A concrete raster for the C5 witness. -/
def exRaster : RasterM :=
  ⟨1, 2, [(1 : ℚ) / 2, 1 / 4, 0, 0, 0, 0]⟩

/-- `get_bitmap` takes `&self`: the explicit state-passing form of the
method returns the receiver unchanged alongside the bytes. -/
def get_bitmapS (r : RasterM) : RasterM × List Nat :=
  (r, r.get_bitmap)

/-- Per-scanline writes of `Raster::draw_line` (raster.rs): exact mirror of
the loop body for one row, given the running `x`, the computed `xnext`
and `d = dy * dir`.  Entries pair the written column index with the added
value, in write order. -/
def rowDeltas (x xnext d : ℚ) : List (ℤ × ℚ) :=
  let p := if x < xnext then (x, xnext) else (xnext, x)
  let x0 := p.1
  let x1 := p.2
  let x0floor : ℚ := (⌊x0⌋ : ℤ)
  let x0i : ℤ := ⌊x0⌋
  let x1ceil : ℚ := (⌈x1⌉ : ℤ)
  let x1i : ℤ := ⌈x1⌉
  if x1i ≤ x0i + 1 then
    let xmf := 0.5 * (x + xnext) - x0floor
    [(x0i, d - d * xmf), (x0i + 1, d * xmf)]
  else
    let s := (x1 - x0)⁻¹
    let x0f := x0 - x0floor
    let a0 := 0.5 * s * (1 - x0f) * (1 - x0f)
    let x1f := x1 - x1ceil + 1
    let am := 0.5 * s * x1f * x1f
    if x1i = x0i + 2 then
      [(x0i, d * a0), (x0i + 1, d * (1 - a0 - am)), (x1i, d * am)]
    else
      let a1 := s * (1.5 - x0f)
      let a2 := a1 + ((x1i - x0i - 3 : ℤ) : ℚ) * s
      [(x0i, d * a0), (x0i + 1, d * (a1 - a0))] ++
        (List.range (x1i - x0i - 3).toNat).map (fun (k : Nat) => (x0i + 2 + (k : ℤ), d * s)) ++
        [(x1i - 1, d * (1 - a2 - am)), (x1i, d * am)]

/-- The scanline loop of `draw_line`: starting at row `y` with running
coordinate `x`, produce `(row, x, xnext)` for each iterated row, where
`xnext = x + dxdy * dy` and `dy` is the segment's vertical extent in the
row, exactly as in the source. -/
def rowsAux (q0y q1y dxdy : ℚ) : Nat → Nat → ℚ → List (Nat × ℚ × ℚ)
  | 0, _, _ => []
  | Nat.succ n, y, x =>
      let dy := min ((y : ℚ) + 1) q1y - max (y : ℚ) q0y
      let xnext := x + dxdy * dy
      (y, x, xnext) :: rowsAux q0y q1y dxdy n (y + 1) xnext

/-- Source `Raster::draw_line`, reorganized to expose its writes: for each
scanline row it crosses, the list of signed per-pixel contributions the
source adds to that row.  Horizontal segments contribute nothing; the
endpoints are ordered by y with the winding direction recorded in `dir`;
float-to-usize casts saturate negatives to 0. -/
def drawLineWrites (h : Nat) (p0 p1 : ℚ × ℚ) : List (Nat × List (ℤ × ℚ)) :=
  if p0.2 = p1.2 then []
  else
    let dqp := if p0.2 < p1.2 then ((1 : ℚ), p0, p1) else (-1, p1, p0)
    let dir := dqp.1
    let q0 := dqp.2.1
    let q1 := dqp.2.2
    let dxdy := (q1.1 - q0.1) / (q1.2 - q0.2)
    let y0 : Nat := (⌊q0.2⌋).toNat
    let xstart := if q0.2 < 0 then q0.1 - q0.2 * dxdy else q0.1
    let ylimit : Nat := min h (⌈q1.2⌉).toNat
    (rowsAux q0.2 q1.2 dxdy (ylimit - y0) y0 xstart).map
      (fun r => (r.1,
        rowDeltas r.2.1 r.2.2 ((min ((r.1 : ℚ) + 1) q1.2 - max (r.1 : ℚ) q0.2) * dir)))

/-! ### cmap format 4 (font.rs, `EncodingFormat4`) -/

/-- Wrap to `u16` (release-mode Rust wrapping arithmetic). -/
def w16 (n : Nat) : Nat := n % 65536

/-- Source `get_end_counts_position`: the `endCounts` array starts at 14. -/
def endCountsPosN : Nat := 14

/-- Source `get_start_counts_position(seg_count)`:
`get_end_counts_position() + 2 + 2 * seg_count` in `u16` arithmetic. -/
def startCountsPosN (sc : Nat) : Nat := w16 (endCountsPosN + 2 + w16 (2 * sc))

/-- Source `get_id_deltas_position(seg_count)`. -/
def idDeltasPosN (sc : Nat) : Nat := w16 (startCountsPosN sc + w16 (2 * sc))

/-- Source `get_id_range_offset_position(seg_count)`. -/
def idRangeOffsetPosN (sc : Nat) : Nat := w16 (idDeltasPosN sc + w16 (2 * sc))

/-- Source `EncodingFormat4::extract_glyph_id`: resolve a code point in
segment `seg_index`, with `start_value = startCount[seg_index]`, via
`idRangeOffset`/`idDelta`, with `u16`/`i16` wrapping arithmetic. -/
def extract_glyph_id (d : List Nat) (cp sv sc segIndex : Nat) : Except PanicE (Option Nat) :=
  let segIndexPos := w16 (2 * segIndex)
  let iropPos := w16 (idRangeOffsetPosN sc + segIndexPos)
  let idPos := w16 (idDeltasPosN sc + segIndexPos)
  match unwrapU16 d iropPos, unwrapI16 d idPos with
  | .ok irov, .ok idDelta =>
      if irov = 0 then
        .ok (some (w16 (cp + u16ofI16 idDelta)))
      else
        let delta := w16 ((cp - sv) * 2)
        let pos := w16 (w16 (iropPos + delta) + irov)
        match unwrapU16 d pos with
        | .ok gav =>
            if gav = 0 then .ok none else .ok (some (u16ofI16 (toI16 gav + idDelta)))
        | .error e => .error e
  | .error e, _ => .error e
  | _, .error e => .error e

/-- Result of the binary-search loop of `lookup_glyph_id`, with an explicit
marker for running out of fuel (shown unreachable when the fuel is at
least `end - start`). -/
inductive LoopRes where
  | out (r : Except PanicE (Option Nat))
  | fuelOut

/-- The `while end > start` loop of `EncodingFormat4::lookup_glyph_id`,
with fuel.  `u16` additions wrap via `w16`. -/
def bsLoop (d : List Nat) (cp sc : Nat) : Nat → Nat → Nat → LoopRes
  | 0, lo, hi => if lo < hi then .fuelOut else .out (.ok none)
  | Nat.succ fuel, lo, hi =>
      if lo < hi then
        let index := w16 (lo + hi) / 2
        let search := w16 (endCountsPosN + w16 (index * 2))
        match unwrapU16 d search with
        | .error e => .out (.error e)
        | .ok endValue =>
            if cp ≤ endValue then
              let startPos := w16 (startCountsPosN sc + w16 (2 * index))
              match unwrapU16 d startPos with
              | .error e => .out (.error e)
              | .ok startValue =>
                  if cp < startValue then
                    bsLoop d cp sc fuel lo index
                  else
                    .out (extract_glyph_id d cp startValue sc index)
            else
              bsLoop d cp sc fuel (w16 (index + 1)) hi
      else
        .out (.ok none)

/-- Source `EncodingFormat4::lookup_glyph_id`: read `segCountX2 / 2`, then
binary-search the segments.  The loop interval starts as `[0, seg_count)`,
so fuel `seg_count` always suffices (`bsLoop` never returns `.fuelOut`
there); the `.fuelOut` arm is mapped to the panic outcome. -/
def lookup_glyph_id (d : List Nat) (cp : Nat) : Except PanicE (Option Nat) :=
  match unwrapU16 d 6 with
  | .error e => .error e
  | .ok scx2 =>
      let sc := scx2 / 2
      match bsLoop d cp sc sc 0 sc with
      | .out r => r
      | .fuelOut => .error .panic

/-- `seg_count` as the specification reads it: `segCountX2 / 2`. -/
def segCountOf (d : List Nat) : Nat := readU16 d 6 / 2

/-- Specification-side read of `endCount[i]`. -/
def endV (d : List Nat) (i : Nat) : Nat := readU16 d (14 + 2 * i)

/-- Specification-side read of `startCount[i]`. -/
def startV (d : List Nat) (sc i : Nat) : Nat := readU16 d (16 + 2 * sc + 2 * i)

/-- Specification-side read of `idDelta[i]` (an `i16`). -/
def idDeltaV (d : List Nat) (sc i : Nat) : Int := toI16 (readU16 d (16 + 4 * sc + 2 * i))

/-- Specification-side read of `idRangeOffset[i]`. -/
def idRangeOffsetV (d : List Nat) (sc i : Nat) : Nat := readU16 d (16 + 6 * sc + 2 * i)

/-- Reference resolution for a code point known to lie in segment `i`, in
the specification's words: glyph id is `code_point + idDelta` (16-bit
wraparound) when `idRangeOffset` is 0, otherwise the value fetched at
`idRangeOffset[i] + 2*(code_point - startCount[i])` relative to that
field's own storage position, plus `idDelta` (wraparound), a fetched 0
meaning unmapped. -/
def specExtract (d : List Nat) (sc cp i : Nat) : Option Nat :=
  if idRangeOffsetV d sc i = 0 then
    some ((((cp : Int) + idDeltaV d sc i) % 65536).toNat)
  else
    let fetchPos := 16 + 6 * sc + 2 * i + idRangeOffsetV d sc i + 2 * (cp - startV d sc i)
    let v := readU16 d fetchPos
    if v = 0 then none
    else some ((((v : Int) + idDeltaV d sc i) % 65536).toNat)

/-- Reference linear scan from segment `k` (with fuel `sc - k`): the first
segment whose end is ≥ the code point and whose start is ≤ it resolves the
code point; running past the last segment yields `None`. -/
def linearScanFrom (d : List Nat) (sc cp : Nat) : Nat → Nat → Option Nat
  | 0, _ => none
  | Nat.succ n, k =>
      if cp ≤ endV d k ∧ startV d sc k ≤ cp then specExtract d sc cp k
      else linearScanFrom d sc cp n (k + 1)

/-- The reference linear scan over the whole segment table. -/
def linearScan (d : List Nat) (cp : Nat) : Option Nat :=
  linearScanFrom d (segCountOf d) cp (segCountOf d) 0

/-- Well-formedness of a format-4 subtable: the header and the four
segment arrays are in bounds (within a table of `u16`-addressable size),
segment ends are sorted, segments do not overlap, and every
`idRangeOffset` indirection that a mapped code point can reach stays in
bounds. -/
def WF4 (d : List Nat) : Prop :=
  8 ≤ d.length ∧ d.length ≤ 65535 ∧
  16 + 8 * segCountOf d ≤ d.length ∧
  (∀ i, i < segCountOf d → ∀ j, j < segCountOf d → i ≤ j → endV d i ≤ endV d j) ∧
  (∀ i, i < segCountOf d → ∀ j, j < segCountOf d → i < j →
    endV d i < startV d (segCountOf d) j) ∧
  (∀ i, i < segCountOf d → idRangeOffsetV d (segCountOf d) i ≠ 0 →
    ∀ cp, cp ≤ endV d i → startV d (segCountOf d) i ≤ cp →
      16 + 6 * segCountOf d + 2 * i + idRangeOffsetV d (segCountOf d) i +
        2 * (cp - startV d (segCountOf d) i) + 2 ≤ d.length)

instance (d : List Nat) : Decidable (WF4 d) := by
  unfold WF4
  infer_instance

/-- A concrete well-formed format-4 subtable: two segments,
[0x41, 0x5A] with idDelta 0 and [0x60, 0x60] with idDelta 5, both with
idRangeOffset 0. -/
def cmapEx : List Nat :=
  [0, 4, 0, 32, 0, 0, 0, 4, 0, 4, 0, 1, 0, 0,
   0, 0x5A, 0, 0x60,
   0, 0,
   0, 0x41, 0, 0x60,
   0, 0, 0, 5,
   0, 0, 0, 0]

/-! ### Font parsing and glyph classification (font.rs) -/

/-- Rust slice `data[a..b]`: panics unless `a ≤ b ≤ data.len()`. -/
def sliceE (data : List Nat) (a b : Nat) : Except PanicE (List Nat) :=
  if a ≤ b ∧ b ≤ data.length then .ok ((data.drop a).take (b - a)) else .error .panic

/-- Total version of `data[a..b]` used in specification-side statements. -/
def sliceP (data : List Nat) (a b : Nat) : List Nat :=
  (data.drop a).take (b - a)

/-- Source `FontError` (font.rs). -/
inductive FontErrorM where
  | Invalid
  deriving DecidableEq, Repr

/-- Source `Font` (font.rs): the parsed table set.  Table bytes are
sub-lists of the input; the tag→table map is an association list with the
most recent insertion first (mirroring `HashMap` overwrite-on-insert). -/
structure FontM where
  version : Nat
  tables : List (Nat × List Nat)
  head : List Nat
  maxp : List Nat
  cmap : Option (List Nat)
  loca : Option (List Nat)
  glyf : Option (List Nat)
  encodingIndex : Option Nat
  hhea : Option (List Nat)
  hmtx : Option (List Nat)
  deriving DecidableEq

/-- Source `Glyph` (font.rs). -/
inductive GlyphM where
  | Empty
  | Simple (data : List Nat)
  | Compound (data : List Nat)
  deriving DecidableEq, Repr

/-- Source `Loca::get_off`: 32-bit entries when `fmt ≠ 0`, else 16-bit
entries scaled by 2.  No unwrap: a short read propagates as `None`. -/
def locaGetOff (loca : List Nat) (glyph_ix : Nat) (fmt : Int) : Except PanicE (Option Nat) :=
  if fmt ≠ 0 then
    get_u32 loca (glyph_ix * 4)
  else
    match get_u16 loca (glyph_ix * 2) with
    | .ok r => .ok (r.map (· * 2))
    | .error e => .error e

/-- Source `Font::get_glyph`: out-of-range indices and missing tables give
`None`; equal loca offsets give `Empty`; otherwise the glyph record is
sliced out of `glyf` and classified `Compound` exactly when its first
`i16` equals -1, `Simple` otherwise. -/
def getGlyph (f : FontM) (glyph_ix : Nat) : Except PanicE (Option GlyphM) :=
  match unwrapU16 f.maxp 4 with
  | .error e => .error e
  | .ok numGlyphs =>
      if numGlyphs ≤ glyph_ix then .ok none
      else
        match unwrapI16 f.head 50 with
        | .error e => .error e
        | .ok fmt =>
            match f.loca with
            | none => .ok none
            | some loca =>
                match locaGetOff loca glyph_ix fmt, locaGetOff loca (glyph_ix + 1) fmt,
                    f.glyf with
                | .ok (some off0), .ok (some off1), some glyf =>
                    if off0 = off1 then .ok (some .Empty)
                    else
                      match sliceE glyf off0 off1 with
                      | .error e => .error e
                      | .ok glyphData =>
                          match get_i16 glyphData 0 with
                          | .error e => .error e
                          | .ok r =>
                              if r = some (-1) then .ok (some (.Compound glyphData))
                              else .ok (some (.Simple glyphData))
                | .error e, _, _ => .error e
                | _, .error e, _ => .error e
                | .ok _, .ok _, _ => .ok none

/-- A concrete font whose glyph 0 record reads `numberOfContours = -1`. -/
def fontNeg1 : FontM :=
  ⟨0x00010000, [], List.replicate 52 0, [0, 0, 0, 0, 0, 2], none,
    some [0, 0, 0, 1], some [0xFF, 0xFF], none, none, none⟩

/-- A concrete font whose glyph 0 record reads `numberOfContours = -2`. -/
def fontNeg2 : FontM :=
  ⟨0x00010000, [], List.replicate 52 0, [0, 0, 0, 0, 0, 2], none,
    some [0, 0, 0, 1], some [0xFF, 0xFE], none, none, none⟩

/-- `HashMap::get` over the association-list model: the most recent
insertion for a tag wins (inserts prepend). -/
def lookupTag (tables : List (Nat × List Nat)) (tag : Nat) : Option (List Nat) :=
  match tables.find? (fun p => p.1 == tag) with
  | some p => some p.2
  | none => none

/-- The table-directory loop of `parse` (font.rs): for each of the
remaining entries, slice the 16-byte header out of `data`, read tag,
checksum, offset and length, slice the table region `data[offset ..
offset+length]` (a panic when it lies outside `data`), and record the
table. -/
def parseTables (data : List Nat) : Nat → Nat → List (Nat × List Nat) →
    Except PanicE (List (Nat × List Nat))
  | 0, _, acc => .ok acc
  | Nat.succ n, i, acc =>
      match sliceE data (12 + i * 16) (12 + (i + 1) * 16) with
      | .error e => .error e
      | .ok header =>
          match unwrapU32 header 0, unwrapU32 header 4, unwrapU32 header 8,
              unwrapU32 header 12 with
          | .ok tag, .ok _checkSum, .ok off, .ok len =>
              match sliceE data off (off + len) with
              | .error e => .error e
              | .ok tableData => parseTables data n (i + 1) ((tag, tableData) :: acc)
          | .error e, _, _, _ => .error e
          | _, .error e, _, _ => .error e
          | _, _, .error e, _ => .error e
          | _, _, _, .error e => .error e

/-- The loop body of `Cmap::find_format_4_encoding` / `Cmap::get_encoding`
for indices `0 ≤ index < numTables`: slice the 12-byte encoding-record
view at `index * 8 + 4`, follow its offset, read the subtable length,
slice the subtable and test its format. -/
def findFormat4Loop (c : List Nat) : Nat → Nat → Except PanicE (Option Nat)
  | 0, _ => .ok none
  | Nat.succ n, index =>
      match sliceE c (w16 (index * 8 + 4)) (w16 (index * 8 + 4) + 12) with
      | .error e => .error e
      | .ok record =>
          match unwrapU32 record 4 with
          | .error e => .error e
          | .ok recOff =>
              match unwrapU16 c (recOff + 2) with
              | .error e => .error e
              | .ok subLen =>
                  match sliceE c recOff (recOff + subLen) with
                  | .error e => .error e
                  | .ok encData =>
                      match unwrapU16 encData 0 with
                      | .error e => .error e
                      | .ok fmt =>
                          if fmt = 4 then .ok (some index)
                          else findFormat4Loop c n (index + 1)

/-- Source `Cmap::find_format_4_encoding`. -/
def findFormat4 (c : List Nat) : Except PanicE (Option Nat) :=
  match unwrapU16 c 2 with
  | .error e => .error e
  | .ok numTables => findFormat4Loop c numTables 0

/-- `Tag::from_str "head"` etc.: big-endian `u32` of the four ASCII bytes. -/
def headTagN : Nat := 0x68656164

def maxpTagN : Nat := 0x6D617870

def locaTagN : Nat := 0x6C6F6361

def glyfTagN : Nat := 0x676C7966

def cmapTagN : Nat := 0x636D6170

def hheaTagN : Nat := 0x68686561

def hmtxTagN : Nat := 0x686D7478

/-- Source `parse` (font.rs): fewer than 12 bytes is `Err(Invalid)`;
otherwise read the SFNT header, run the table-directory loop (which
panics on any region outside `data`), then build the `Font`, panicking
(`unwrap`) when `head` or `maxp` is absent, and locating the first
format-4 cmap encoding when a `cmap` table is present. -/
def parse (data : List Nat) : Except PanicE (Except FontErrorM FontM) :=
  if data.length < 12 then .ok (.error .Invalid)
  else
    match unwrapU32 data 0 with
    | .error e => .error e
    | .ok version =>
        match unwrapU16 data 4 with
        | .error e => .error e
        | .ok numTables =>
            match unwrapU16 data 6, unwrapU16 data 8, unwrapU16 data 10 with
            | .ok _searchRange, .ok _entrySelector, .ok _rangeShift =>
                match parseTables data numTables 0 [] with
                | .error e => .error e
                | .ok tables =>
                    match lookupTag tables headTagN, lookupTag tables maxpTagN with
                    | some head, some maxp =>
                        let loca := lookupTag tables locaTagN
                        let glyf := lookupTag tables glyfTagN
                        let cmap := lookupTag tables cmapTagN
                        let hhea := lookupTag tables hheaTagN
                        let hmtx := lookupTag tables hmtxTagN
                        match cmap with
                        | none =>
                            .ok (.ok ⟨version, tables, head, maxp, none, loca, glyf,
                              none, hhea, hmtx⟩)
                        | some c =>
                            match findFormat4 c with
                            | .error e => .error e
                            | .ok encIx =>
                                .ok (.ok ⟨version, tables, head, maxp, some c, loca,
                                  glyf, encIx, hhea, hmtx⟩)
                    | _, _ => .error .panic
            | .error e, _, _ => .error e
            | _, .error e, _ => .error e
            | _, _, .error e => .error e

/-- A 28-byte buffer: valid 12-byte header, one directory entry declaring
region [100, 104) — outside the buffer. -/
def badFont : List Nat :=
  [0, 1, 0, 0, 0, 1, 0, 16, 0, 0, 0, 0,
   0x67, 0x6C, 0x79, 0x66, 0, 0, 0, 0, 0, 0, 0, 100, 0, 0, 0, 4]

/-! ### Path reconstruction (font.rs, `BezPathOps`) -/

/-- Source `PathOp` (font.rs), points over ℚ. -/
inductive PathOpM where
  | MoveTo (p : ℚ × ℚ)
  | LineTo (p : ℚ × ℚ)
  | QuadTo (p1 p2 : ℚ × ℚ)
  deriving DecidableEq, Repr

/-- The mutable fields of `BezPathOps` that persist across `next()` calls
while consuming input (the `closing`/`alldone` flags are captured by the
phase structure of `runPts`/`closeOps`). -/
structure PathState where
  first_oncurve : Option (ℚ × ℚ)
  first_offcurve : Option (ℚ × ℚ)
  last_offcurve : Option (ℚ × ℚ)
  deriving DecidableEq, Repr

/-- `BezPathOps` initial state, as built by `path_from_pts`. -/
def initPathState : PathState := ⟨none, none, none⟩

/-- The input-consuming phase of `BezPathOps::next` (font.rs): process the
point stream, emitting ops and updating the state exactly as the source's
`Some((oncurve, x, y))` arm does; returns all emitted ops and the state
at exhaustion. -/
def runPts (s : PathState) : List (Bool × Int × Int) → List PathOpM × PathState
  | [] => ([], s)
  | (oncurve, x, y) :: rest =>
      let p : ℚ × ℚ := ((x : ℚ), (y : ℚ))
      match s.first_oncurve with
      | none =>
          if oncurve then
            let r := runPts { s with first_oncurve := some p } rest
            (.MoveTo p :: r.1, r.2)
          else
            match s.first_offcurve with
            | none => runPts { s with first_offcurve := some p } rest
            | some fo =>
                let midp := lerp 0.5 fo p
                let s2 := { s with first_oncurve := some midp, last_offcurve := some p }
                let r := runPts s2 rest
                (.MoveTo midp :: r.1, r.2)
      | some _ =>
          match s.last_offcurve, oncurve with
          | none, false => runPts { s with last_offcurve := some p } rest
          | none, true =>
              let r := runPts s rest
              (.LineTo p :: r.1, r.2)
          | some lo, false =>
              let r := runPts { s with last_offcurve := some p } rest
              (.QuadTo lo (lerp 0.5 lo p) :: r.1, r.2)
          | some lo, true =>
              let r := runPts { s with last_offcurve := none } rest
              (.QuadTo lo p :: r.1, r.2)

/-- The closing phase of `BezPathOps::next` (font.rs): the ops emitted
after the input is exhausted, by the four cases on
`(first_offcurve, last_offcurve)`.  In the source the
`(Some, Some)` case emits its first `QuadTo`, clears `last_offcurve` and
loops, so it contributes two ops; `first_oncurve.unwrap()` panics when no
on-curve point (not even an implied one) was seen. -/
def closeOps (s : PathState) : Except PanicE (List PathOpM) :=
  match s.first_offcurve, s.last_offcurve with
  | none, none =>
      match s.first_oncurve with
      | some fo => .ok [.LineTo fo]
      | none => .error .panic
  | none, some lo =>
      match s.first_oncurve with
      | some fo => .ok [.QuadTo lo fo]
      | none => .error .panic
  | some fo1, none =>
      match s.first_oncurve with
      | some fo => .ok [.QuadTo fo1 fo]
      | none => .error .panic
  | some fo1, some lo =>
      match s.first_oncurve with
      | some fo => .ok [.QuadTo lo (lerp 0.5 lo fo1), .QuadTo fo1 fo]
      | none => .error .panic

/-- Source `path_from_pts`, run to completion on a finite point stream:
all ops emitted while consuming the input, then the closing ops; the
iterator returns `None` forever afterwards (`alldone`), which the list
model renders by being finite. -/
def pathFromPts (pts : List (Bool × Int × Int)) : Except PanicE (List PathOpM) :=
  match closeOps (runPts initPathState pts).2 with
  | .error e => .error e
  | .ok cl => .ok ((runPts initPathState pts).1 ++ cl)

/-- The final point of a path op. -/
def opEndpoint : PathOpM → ℚ × ℚ
  | .MoveTo p => p
  | .LineTo p => p
  | .QuadTo _ p => p

/-- A contour of three off-curve points: at exhaustion both a first and a
last off-curve point are pending. -/
def ptsCx : List (Bool × Int × Int) := [(false, 0, 0), (false, 2, 0), (false, 0, 2)]

theorem get_u16_ok_of_lt (data : List Nat) (off : Nat) (h : off + 2 ≤ data.length) :
    get_u16 data off = .ok (some (readU16 data off)) := by
  have h0 : off < data.length := by omega
  have h1 : off + 1 < data.length := by omega
  simp only [get_u16, idx, readU16]
  rw [if_neg (by omega), dif_pos h0, dif_pos h1]
  simp [List.getD_eq_getElem?_getD, List.getElem?_eq_getElem h0, List.getElem?_eq_getElem h1,
    List.get_eq_getElem]

theorem get_u16_none_of_ge (data : List Nat) (off : Nat) (h : data.length ≤ off) :
    get_u16 data off = .ok none := by
  simp only [get_u16]
  rw [if_pos (by omega)]

theorem get_u16_panic_at_edge (data : List Nat) (off : Nat) (h : off + 1 = data.length) :
    get_u16 data off = .error .panic := by
  simp only [get_u16, idx]
  rw [if_neg (by omega), dif_pos (by omega), dif_neg (by omega)]

theorem unwrapU16_ok_of_lt (data : List Nat) (off : Nat) (h : off + 2 ≤ data.length) :
    unwrapU16 data off = .ok (readU16 data off) := by
  simp [unwrapU16, get_u16_ok_of_lt data off h]

theorem unwrapI16_ok_of_lt (data : List Nat) (off : Nat) (h : off + 2 ≤ data.length) :
    unwrapI16 data off = .ok (toI16 (readU16 data off)) := by
  simp [unwrapI16, get_i16, get_u16_ok_of_lt data off h]

theorem readU16_lt (data : List Nat) (off : Nat) : readU16 data off < 65536 := by
  have h0 : data.getD off 0 % 256 < 256 := Nat.mod_lt _ (by omega)
  have h1 : data.getD (off + 1) 0 % 256 < 256 := Nat.mod_lt _ (by omega)
  simp only [readU16]
  omega

/-- Claim C8: composing transform t1 (outer) with t2 (inner) and applying the
result to a point is the same as applying t2 then t1 (exact-arithmetic model
of the `f32` computation). -/
theorem affine_concat_applies_inner_then_outer (t1 t2 : AffineM) (p : ℚ × ℚ) :
    affine_pt (AffineM.concat t1 t2) p = affine_pt t1 (affine_pt t2 p) := by
  simp only [affine_pt, AffineM.concat, Prod.mk.injEq]
  exact ⟨by ring, by ring⟩

theorem scanBytes_length (l : List ℚ) (acc : ℚ) : (scanBytes acc l).length = l.length := by
  induction l generalizing acc with
  | nil => rfl
  | cons v t ih => simp [scanBytes, ih]

theorem scanBytes_getD (l : List ℚ) (acc : ℚ) (i : Nat) (hi : i < l.length) :
    (scanBytes acc l).getD i 0 = toByte (acc + (l.take (i + 1)).sum) := by
  induction l generalizing acc i with
  | nil => simp at hi
  | cons v t ih =>
      cases i with
      | zero => simp [scanBytes]
      | succ j =>
          have hj : j < t.length := by simpa using hi
          simp only [scanBytes, List.getD_cons_succ, List.take_succ_cons, List.sum_cons]
          rw [ih (acc + v) j hj, add_assoc]

theorem toByte_eq_clamp (s : ℚ) : toByte s = (⌊255 * min |s| 1⌋).toNat := by
  unfold toByte
  by_cases h : |s| < 1
  · rw [if_pos h, min_eq_left h.le]
  · rw [if_neg h, min_eq_right (le_of_not_lt h)]

/-- Claim C5: for every `Raster` satisfying the allocation invariant
`w * h ≤ a.length`, the reference `get_bitmap` returns exactly `w * h`
bytes, and the i-th byte is the truncation of `255` times the absolute
value of the prefix sum `a[0] + ... + a[i]` clamped to `1.0`. -/
theorem get_bitmap_prefix_sum (r : RasterM) (hlen : r.w * r.h ≤ r.a.length) :
    r.get_bitmap.length = r.w * r.h ∧
    ∀ i, i < r.w * r.h →
      r.get_bitmap.getD i 0 = (⌊255 * min |(r.a.take (i + 1)).sum| 1⌋).toNat := by
  constructor
  · rw [RasterM.get_bitmap, scanBytes_length, List.length_take]
    omega
  · intro i hi
    have hi' : i < (r.a.take (r.w * r.h)).length := by
      rw [List.length_take]; omega
    rw [RasterM.get_bitmap, scanBytes_getD _ _ _ hi', List.take_take,
      min_eq_left (by omega : i + 1 ≤ r.w * r.h), zero_add, toByte_eq_clamp]

theorem get_bitmap_prefix_sum_witness :
    exRaster.w * exRaster.h ≤ exRaster.a.length ∧
    exRaster.get_bitmap.length = exRaster.w * exRaster.h ∧
    exRaster.get_bitmap.getD 0 0 = (⌊255 * min |(exRaster.a.take 1).sum| 1⌋).toNat := by
  have h : exRaster.w * exRaster.h ≤ exRaster.a.length := by
    simp [exRaster]
  exact ⟨h, (get_bitmap_prefix_sum exRaster h).1,
    (get_bitmap_prefix_sum exRaster h).2 0 (by simp [exRaster])⟩

/-- Claim C9: `get_bitmap` does not mutate the `Raster` (its `&self`
receiver, made explicit by state passing): the accumulator, width and
height after a call are unchanged, and a second consecutive call returns
the same byte vector. -/
theorem get_bitmap_preserves_raster (r : RasterM) :
    (get_bitmapS r).1.a = r.a ∧ (get_bitmapS r).1.w = r.w ∧ (get_bitmapS r).1.h = r.h ∧
    (get_bitmapS (get_bitmapS r).1).2 = (get_bitmapS r).2 := by
  exact ⟨rfl, rfl, rfl, rfl⟩

theorem sum_snd_map_range (n : Nat) (c : ℚ) (g : Nat → ℤ) :
    (((List.range n).map (fun k => (g k, c))).map Prod.snd).sum = (n : ℚ) * c := by
  rw [List.map_map]
  have hfn : (Prod.snd ∘ fun k => (g k, c)) = fun (k : Nat) => c := rfl
  rw [hfn, List.map_const', List.sum_replicate, List.length_range, nsmul_eq_mul]

theorem rowDeltas_sum (x xnext d : ℚ) : ((rowDeltas x xnext d).map Prod.snd).sum = d := by
  unfold rowDeltas
  rcases lt_or_ge x xnext with hswap | hswap
  · rw [if_pos hswap]
    dsimp only
    split_ifs with h1 h2
    · simp only [List.map_cons, List.map_nil, List.sum_cons, List.sum_nil]
      ring
    · simp only [List.map_cons, List.map_nil, List.sum_cons, List.sum_nil]
      ring
    · have hnn : (0 : ℤ) ≤ ⌈xnext⌉ - ⌊x⌋ - 3 := by omega
      simp only [List.map_append, List.sum_append, List.map_cons, List.map_nil,
        List.sum_cons, List.sum_nil]
      rw [sum_snd_map_range]
      have ht : (((⌈xnext⌉ - ⌊x⌋ - 3).toNat : ℕ) : ℚ) = ((⌈xnext⌉ - ⌊x⌋ - 3 : ℤ) : ℚ) := by
        rw [← Int.cast_natCast, Int.toNat_of_nonneg hnn]
      rw [ht]
      push_cast
      ring
  · rw [if_neg (not_lt.mpr hswap)]
    dsimp only
    split_ifs with h1 h2
    · simp only [List.map_cons, List.map_nil, List.sum_cons, List.sum_nil]
      ring
    · simp only [List.map_cons, List.map_nil, List.sum_cons, List.sum_nil]
      ring
    · have hnn : (0 : ℤ) ≤ ⌈x⌉ - ⌊xnext⌋ - 3 := by omega
      simp only [List.map_append, List.sum_append, List.map_cons, List.map_nil,
        List.sum_cons, List.sum_nil]
      rw [sum_snd_map_range]
      have ht : (((⌈x⌉ - ⌊xnext⌋ - 3).toNat : ℕ) : ℚ) = ((⌈x⌉ - ⌊xnext⌋ - 3 : ℤ) : ℚ) := by
        rw [← Int.cast_natCast, Int.toNat_of_nonneg hnn]
      rw [ht]
      push_cast
      ring

/-- Claim C4: for each scanline row that `draw_line` iterates, the signed
per-pixel contributions it writes to that row sum to exactly
`d = dy * dir`, where `dy` is the segment's vertical extent within the row
and `dir` is the winding direction (exact-arithmetic model of the `f32`
computation). -/
theorem draw_line_row_conservation (h : Nat) (p0 p1 : ℚ × ℚ) :
    (drawLineWrites h p0 p1).Forall (fun r =>
      (r.2.map Prod.snd).sum =
        (min ((r.1 : ℚ) + 1) (max p0.2 p1.2) - max (r.1 : ℚ) (min p0.2 p1.2)) *
          (if p0.2 < p1.2 then 1 else -1)) := by
  by_cases hy : p0.2 = p1.2
  · simp [drawLineWrites, hy]
  · rw [drawLineWrites, if_neg hy, List.forall_iff_forall_mem]
    intro r hr
    rw [List.mem_map] at hr
    obtain ⟨t, _, rfl⟩ := hr
    by_cases hlt : p0.2 < p1.2
    · simp only [hlt, if_true]
      rw [rowDeltas_sum, max_eq_right hlt.le, min_eq_left hlt.le]
    · have hgt : p1.2 < p0.2 := lt_of_le_of_ne (le_of_not_lt hlt) (fun he => hy he.symm)
      simp only [hlt, if_false]
      rw [rowDeltas_sum, max_eq_left hgt.le, min_eq_right hgt.le]

theorem positionsN (sc : Nat) (h : 16 + 8 * sc ≤ 65535) :
    startCountsPosN sc = 16 + 2 * sc ∧ idDeltasPosN sc = 16 + 4 * sc ∧
    idRangeOffsetPosN sc = 16 + 6 * sc := by
  unfold idRangeOffsetPosN idDeltasPosN startCountsPosN endCountsPosN w16
  omega

theorem wrapAddU16 (cp dRaw : Nat) (h : dRaw < 65536) :
    w16 (cp + u16ofI16 (toI16 dRaw)) = (((cp : Int) + toI16 dRaw) % 65536).toNat := by
  unfold w16 u16ofI16 toI16
  simp only [Nat.mod_eq_of_lt h]
  split_ifs with h1 <;> omega

theorem wrapAddI16 (gav : Nat) (dl : Int) (h : gav < 65536) :
    u16ofI16 (toI16 gav + dl) = (((gav : Int) + dl) % 65536).toNat := by
  unfold u16ofI16 toI16
  simp only [Nat.mod_eq_of_lt h]
  split_ifs with h1 <;> omega

theorem extract_eq_spec (d : List Nat) (cp i : Nat) (hwf : WF4 d)
    (hi : i < segCountOf d) (hcpend : cp ≤ endV d i)
    (hcpstart : startV d (segCountOf d) i ≤ cp) :
    extract_glyph_id d cp (startV d (segCountOf d) i) (segCountOf d) i =
      .ok (specExtract d (segCountOf d) cp i) := by
  obtain ⟨h8, hlen, hbound, hsort, hno, hidr⟩ := hwf
  have hsc65 : 16 + 8 * segCountOf d ≤ 65535 := by omega
  have hpos := positionsN (segCountOf d) hsc65
  have hseg : w16 (2 * i) = 2 * i := by unfold w16; omega
  have hirop : w16 (idRangeOffsetPosN (segCountOf d) + w16 (2 * i)) =
      16 + 6 * segCountOf d + 2 * i := by
    rw [hpos.2.2, hseg]; unfold w16; omega
  have hid : w16 (idDeltasPosN (segCountOf d) + w16 (2 * i)) =
      16 + 4 * segCountOf d + 2 * i := by
    rw [hpos.2.1, hseg]; unfold w16; omega
  have hr1 : unwrapU16 d (16 + 6 * segCountOf d + 2 * i) =
      .ok (idRangeOffsetV d (segCountOf d) i) :=
    unwrapU16_ok_of_lt d _ (by omega)
  have hr2 : unwrapI16 d (16 + 4 * segCountOf d + 2 * i) =
      .ok (idDeltaV d (segCountOf d) i) :=
    unwrapI16_ok_of_lt d _ (by omega)
  simp only [extract_glyph_id, hirop, hid, hr1, hr2, specExtract]
  by_cases hz : idRangeOffsetV d (segCountOf d) i = 0
  · rw [if_pos hz, if_pos hz]
    simp only [idDeltaV]
    rw [wrapAddU16 cp _ (readU16_lt d _)]
  · rw [if_neg hz, if_neg hz]
    have hfb := hidr i hi hz cp hcpend hcpstart
    have hrov := readU16_lt d (16 + 6 * segCountOf d + 2 * i)
    have hposeq : w16 (w16 (16 + 6 * segCountOf d + 2 * i +
        w16 ((cp - startV d (segCountOf d) i) * 2)) + idRangeOffsetV d (segCountOf d) i) =
        16 + 6 * segCountOf d + 2 * i + idRangeOffsetV d (segCountOf d) i +
          2 * (cp - startV d (segCountOf d) i) := by
      unfold idRangeOffsetV at hfb ⊢
      unfold w16
      omega
    rw [hposeq]
    have hr3 : unwrapU16 d (16 + 6 * segCountOf d + 2 * i +
        idRangeOffsetV d (segCountOf d) i + 2 * (cp - startV d (segCountOf d) i)) =
        .ok (readU16 d (16 + 6 * segCountOf d + 2 * i +
          idRangeOffsetV d (segCountOf d) i + 2 * (cp - startV d (segCountOf d) i))) :=
      unwrapU16_ok_of_lt d _ (by omega)
    simp only [hr3]
    by_cases hgz : readU16 d (16 + 6 * segCountOf d + 2 * i +
        idRangeOffsetV d (segCountOf d) i + 2 * (cp - startV d (segCountOf d) i)) = 0
    · rw [if_pos hgz, if_pos hgz]
    · rw [if_neg hgz, if_neg hgz]
      simp only [idDeltaV]
      rw [wrapAddI16 _ _ (readU16_lt d _)]

theorem scanFrom_none (d : List Nat) (sc cp : Nat) :
    ∀ fuel k, fuel + k = sc →
    (∀ i, k ≤ i → i < sc → ¬(cp ≤ endV d i ∧ startV d sc i ≤ cp)) →
    linearScanFrom d sc cp fuel k = none := by
  intro fuel
  induction fuel with
  | zero => intro k _ _; rfl
  | succ n ih =>
      intro k hfk hno
      have hks : k < sc := by omega
      simp only [linearScanFrom]
      rw [if_neg (hno k le_rfl hks)]
      exact ih (k + 1) (by omega) (fun i h1 h2 => hno i (by omega) h2)

theorem scanFrom_some (d : List Nat) (sc cp : Nat) :
    ∀ fuel k j, fuel + k = sc → k ≤ j → j < sc →
    (cp ≤ endV d j ∧ startV d sc j ≤ cp) →
    (∀ i, i < sc → cp ≤ endV d i → startV d sc i ≤ cp → i = j) →
    linearScanFrom d sc cp fuel k = specExtract d sc cp j := by
  intro fuel
  induction fuel with
  | zero =>
      intro k j hfk hkj hjs _ _
      exact absurd hjs (by omega)
  | succ n ih =>
      intro k j hfk hkj hjs hPj huniq
      simp only [linearScanFrom]
      by_cases hk : cp ≤ endV d k ∧ startV d sc k ≤ cp
      · rw [if_pos hk, huniq k (by omega) hk.1 hk.2]
      · rw [if_neg hk]
        have hkj2 : k ≠ j := fun he => hk (he ▸ hPj)
        exact ih (k + 1) j (by omega) (by omega) hjs hPj huniq

theorem bsLoop_eq (d : List Nat) (cp : Nat) (hwf : WF4 d) :
    ∀ fuel lo hi, hi ≤ segCountOf d → lo ≤ hi → hi - lo ≤ fuel →
    (∀ i, i < segCountOf d → cp ≤ endV d i → startV d (segCountOf d) i ≤ cp →
      lo ≤ i ∧ i < hi) →
    bsLoop d cp (segCountOf d) fuel lo hi =
      .out (.ok (linearScanFrom d (segCountOf d) cp (segCountOf d) 0)) := by
  obtain ⟨h8, hlen, hbound, hsort, hno, hidr⟩ := hwf
  intro fuel
  induction fuel with
  | zero =>
      intro lo hi hhis hlh hfuel hinv
      have hle : hi = lo := by omega
      simp only [bsLoop]
      rw [if_neg (by omega)]
      rw [scanFrom_none d (segCountOf d) cp (segCountOf d) 0 (by omega)
        (fun i h1 h2 hP => by
          have := hinv i h2 hP.1 hP.2
          omega)]
  | succ n ih =>
      intro lo hi hhis hlh hfuel hinv
      by_cases hlth : lo < hi
      · have hscb : segCountOf d ≤ 8189 := by omega
        have hmid1 : w16 (lo + hi) = lo + hi := by unfold w16; omega
        have hmid2 : lo ≤ (lo + hi) / 2 ∧ (lo + hi) / 2 < hi := by omega
        have hmidsc : (lo + hi) / 2 < segCountOf d := by omega
        have hsearch : w16 (endCountsPosN + w16 (w16 (lo + hi) / 2 * 2)) =
            14 + 2 * ((lo + hi) / 2) := by
          rw [hmid1]; unfold endCountsPosN w16; omega
        have hread1 : unwrapU16 d (14 + 2 * ((lo + hi) / 2)) =
            .ok (endV d ((lo + hi) / 2)) :=
          unwrapU16_ok_of_lt d _ (by omega)
        simp only [bsLoop]
        rw [if_pos hlth]
        simp only [hsearch, hread1]
        by_cases hce : cp ≤ endV d ((lo + hi) / 2)
        · rw [if_pos hce]
          have hsp : w16 (startCountsPosN (segCountOf d) + w16 (2 * (w16 (lo + hi) / 2))) =
              16 + 2 * segCountOf d + 2 * ((lo + hi) / 2) := by
            rw [hmid1, (positionsN (segCountOf d) (by omega)).1]
            unfold w16; omega
          have hread2 : unwrapU16 d (16 + 2 * segCountOf d + 2 * ((lo + hi) / 2)) =
              .ok (startV d (segCountOf d) ((lo + hi) / 2)) :=
            unwrapU16_ok_of_lt d _ (by omega)
          simp only [hsp, hread2]
          by_cases hcs : cp < startV d (segCountOf d) ((lo + hi) / 2)
          · rw [if_pos hcs, hmid1]
            apply ih lo ((lo + hi) / 2) (by omega) (by omega) (by omega)
            intro i hisc hie his
            have hold := hinv i hisc hie his
            refine ⟨hold.1, ?_⟩
            by_contra hge
            have hge2 : (lo + hi) / 2 ≤ i := by omega
            rcases Nat.eq_or_lt_of_le hge2 with he | hlt2
            · exact absurd his (by rw [← he]; omega)
            · have := hno ((lo + hi) / 2) hmidsc i hisc hlt2
              omega
          · rw [if_neg hcs, hmid1]
            have hPmid : cp ≤ endV d ((lo + hi) / 2) ∧
                startV d (segCountOf d) ((lo + hi) / 2) ≤ cp := ⟨hce, by omega⟩
            have huniq : ∀ i, i < segCountOf d → cp ≤ endV d i →
                startV d (segCountOf d) i ≤ cp → i = (lo + hi) / 2 := by
              intro i hisc hie his
              by_contra hne
              rcases Nat.lt_or_ge i ((lo + hi) / 2) with hlt2 | hge2
              · have := hno i hisc ((lo + hi) / 2) hmidsc hlt2
                omega
              · have hlt3 : (lo + hi) / 2 < i := by omega
                have := hno ((lo + hi) / 2) hmidsc i hisc hlt3
                omega
            rw [extract_eq_spec d cp ((lo + hi) / 2)
              ⟨h8, hlen, hbound, hsort, hno, hidr⟩ hmidsc hce (by omega)]
            rw [scanFrom_some d (segCountOf d) cp (segCountOf d) 0 ((lo + hi) / 2)
              (by omega) (by omega) hmidsc hPmid huniq]
        · rw [if_neg hce, hmid1]
          have hnext : w16 ((lo + hi) / 2 + 1) = (lo + hi) / 2 + 1 := by
            unfold w16; omega
          rw [hnext]
          apply ih ((lo + hi) / 2 + 1) hi hhis (by omega) (by omega)
          intro i hisc hie his
          have hold := hinv i hisc hie his
          refine ⟨?_, hold.2⟩
          by_contra hge
          have hile : i ≤ (lo + hi) / 2 := by omega
          have := hsort i hisc ((lo + hi) / 2) hmidsc hile
          omega
      · have hle : hi = lo := by omega
        simp only [bsLoop]
        rw [if_neg (by omega)]
        rw [scanFrom_none d (segCountOf d) cp (segCountOf d) 0 (by omega)
          (fun i h1 h2 hP => by
            have := hinv i h2 hP.1 hP.2
            omega)]

/-- Claim C3: on a well-formed format-4 subtable (sorted ends,
non-overlapping segments, all reads in bounds), `lookup_glyph_id` computes
the same result as the reference linear scan over the segment table, for
every 16-bit code point; in particular every unmapped code point yields
`None` and mapped ones resolve via `idDelta`/`idRangeOffset` with 16-bit
wraparound, fetched 0 meaning unmapped. -/
theorem lookup_glyph_id_matches_linear_scan (d : List Nat) (cp : Nat)
    (hwf : WF4 d) (hcp : cp < 65536) :
    lookup_glyph_id d cp = .ok (linearScan d cp) := by
  have h8 : 8 ≤ d.length := hwf.1
  have hr6 : unwrapU16 d 6 = .ok (readU16 d 6) := unwrapU16_ok_of_lt d 6 (by omega)
  have hloop := bsLoop_eq d cp hwf (segCountOf d) 0 (segCountOf d) le_rfl
    (Nat.zero_le _) (by omega) (fun i hi h1 h2 => ⟨Nat.zero_le i, hi⟩)
  simp only [lookup_glyph_id, hr6]
  simp only [segCountOf] at hloop
  simp only [hloop]
  rfl

theorem lookup_glyph_id_matches_linear_scan_witness :
    WF4 cmapEx ∧ 0x41 < 65536 ∧
    lookup_glyph_id cmapEx 0x41 = .ok (linearScan cmapEx 0x41) ∧
    linearScan cmapEx 0x41 = some 0x41 := by
  have hwf : WF4 cmapEx := by decide
  exact ⟨hwf, by decide,
    lookup_glyph_id_matches_linear_scan cmapEx 0x41 hwf (by decide), by decide⟩

/-- Claim C10: the binary-search loop of `lookup_glyph_id` terminates.
With the interval upper end bounded by `seg_count < 0x8000` (guaranteed
since `seg_count = segCountX2 / 2 ≤ 0xFFFF / 2`), the midpoint
`(start + end) / 2` does not overflow `u16` and satisfies
`start ≤ mid < end` whenever `start < end`, so fuel `end - start` always
suffices: the loop never returns `.fuelOut`. -/
theorem bsLoop_terminates (d : List Nat) (cp sc : Nat) :
    ∀ fuel lo hi, hi ≤ 32767 → hi - lo ≤ fuel →
    (bsLoop d cp sc fuel lo hi ≠ .fuelOut ∧
      (lo < hi → lo + hi < 65536 ∧ lo ≤ w16 (lo + hi) / 2 ∧ w16 (lo + hi) / 2 < hi)) := by
  intro fuel
  induction fuel with
  | zero =>
      intro lo hi h1 h2
      refine ⟨?_, fun h => absurd h (by omega)⟩
      simp only [bsLoop]
      rw [if_neg (by omega)]
      intro h
      cases h
  | succ n ih =>
      intro lo hi h1 h2
      refine ⟨?_, fun h => by unfold w16; omega⟩
      simp only [bsLoop]
      by_cases hlth : lo < hi
      · rw [if_pos hlth]
        split
        · intro h
          cases h
        · rename_i endValue heq
          by_cases hce : cp ≤ endValue
          · rw [if_pos hce]
            split
            · intro h
              cases h
            · rename_i startValue heq2
              by_cases hcs : cp < startValue
              · rw [if_pos hcs]
                exact (ih lo (w16 (lo + hi) / 2)
                  (by unfold w16; omega) (by unfold w16; omega)).1
              · rw [if_neg hcs]
                intro h
                cases h
          · rw [if_neg hce]
            exact (ih (w16 (w16 (lo + hi) / 2 + 1)) hi h1 (by unfold w16; omega)).1
      · rw [if_neg hlth]
        intro h
        cases h

theorem bsLoop_terminates_witness :
    (2 : Nat) ≤ 32767 ∧ 2 - 0 ≤ 2 ∧ bsLoop cmapEx 0x41 2 2 0 2 ≠ .fuelOut ∧
    (0 < 2 → 0 + 2 < 65536 ∧ 0 ≤ w16 (0 + 2) / 2 ∧ w16 (0 + 2) / 2 < 2) := by
  have h := bsLoop_terminates cmapEx 0x41 2 2 0 2 (by omega) (by omega)
  exact ⟨by omega, by omega, h.1, h.2⟩

theorem sliceE_ok (data : List Nat) (a b : Nat) (hab : a ≤ b) (hb : b ≤ data.length) :
    sliceE data a b = .ok (sliceP data a b) := by
  simp [sliceE, sliceP, hab, hb]

theorem sliceE_err (data : List Nat) (a b : Nat) (hb : data.length < b) :
    sliceE data a b = .error .panic := by
  have : ¬(a ≤ b ∧ b ≤ data.length) := by omega
  simp [sliceE, this]

/-- Claim C6 (amended): for a non-empty glyph record reachable through
`loca`/`glyf`, `get_glyph` classifies the glyph `Compound` exactly when
its first signed 16-bit value (`numberOfContours`) is -1; every other
value — including every other negative value — yields `Simple`. -/
theorem getGlyph_classifies_by_minus_one (f : FontM) (glyph_ix numGlyphs : Nat)
    (fmt : Int) (loca glyf gd : List Nat) (off0 off1 : Nat) (r : Option Int)
    (hng : unwrapU16 f.maxp 4 = .ok numGlyphs) (hix : glyph_ix < numGlyphs)
    (hfmt : unwrapI16 f.head 50 = .ok fmt) (hloca : f.loca = some loca)
    (hoff0 : locaGetOff loca glyph_ix fmt = .ok (some off0))
    (hoff1 : locaGetOff loca (glyph_ix + 1) fmt = .ok (some off1))
    (hglyf : f.glyf = some glyf) (hne : off0 ≠ off1)
    (hslice : sliceE glyf off0 off1 = .ok gd)
    (hr : get_i16 gd 0 = .ok r) :
    getGlyph f glyph_ix =
      .ok (some (if r = some (-1) then .Compound gd else .Simple gd)) := by
  simp only [getGlyph, hng, hfmt, hloca, hoff0, hoff1, hglyf, hslice, hr]
  rw [if_neg (by omega)]
  rw [if_neg hne]
  by_cases hm : r = some (-1)
  · rw [if_pos hm, if_pos hm]
  · rw [if_neg hm, if_neg hm]

theorem getGlyph_neg2_is_simple :
    get_i16 [0xFF, 0xFE] 0 = .ok (some (-2)) ∧
    getGlyph fontNeg2 0 = .ok (some (.Simple [0xFF, 0xFE])) := by
  exact ⟨rfl, rfl⟩

theorem getGlyph_classifies_by_minus_one_witness :
    getGlyph fontNeg1 0 =
      .ok (some (if (some (-1) : Option Int) = some (-1) then .Compound [0xFF, 0xFF]
        else .Simple [0xFF, 0xFF])) := by
  exact getGlyph_classifies_by_minus_one fontNeg1 0 2 0 [0, 0, 0, 1] [0xFF, 0xFF]
    [0xFF, 0xFF] 0 2 (some (-1)) rfl (by omega) rfl rfl rfl rfl rfl (by omega) rfl rfl

theorem get_u32_ok_of_lt (data : List Nat) (off : Nat) (h : off + 4 ≤ data.length) :
    get_u32 data off = .ok (some (readU32 data off)) := by
  have h0 : off < data.length := by omega
  have h1 : off + 1 < data.length := by omega
  have h2 : off + 2 < data.length := by omega
  have h3 : off + 3 < data.length := by omega
  simp only [get_u32, idx, readU32]
  rw [if_neg (by omega), dif_pos h0, dif_pos h1, dif_pos h2, dif_pos h3]
  simp [List.getD_eq_getElem?_getD, List.getElem?_eq_getElem h0, List.getElem?_eq_getElem h1,
    List.getElem?_eq_getElem h2, List.getElem?_eq_getElem h3, List.get_eq_getElem]

theorem unwrapU32_ok_of_lt (data : List Nat) (off : Nat) (h : off + 4 ≤ data.length) :
    unwrapU32 data off = .ok (readU32 data off) := by
  simp [unwrapU32, get_u32_ok_of_lt data off h]

theorem parseTables_panics (data : List Nat) :
    ∀ fuel k acc i, k ≤ i → i < k + fuel →
      12 + (i + 1) * 16 ≤ data.length →
      data.length < readU32 (sliceP data (12 + i * 16) (12 + (i + 1) * 16)) 8 +
        readU32 (sliceP data (12 + i * 16) (12 + (i + 1) * 16)) 12 →
      parseTables data fuel k acc = .error .panic := by
  intro fuel
  induction fuel with
  | zero =>
      intro k acc i h1 h2 _ _
      exact absurd h2 (by omega)
  | succ n ih =>
      intro k acc i hki hik hhdr hbad
      simp only [parseTables]
      by_cases hh : 12 + (k + 1) * 16 ≤ data.length
      · set hdr := sliceP data (12 + k * 16) (12 + (k + 1) * 16) with hdr_def
        have hlen : hdr.length = 16 := by
          rw [hdr_def]
          simp only [sliceP, List.length_take, List.length_drop]
          omega
        have e0 := unwrapU32_ok_of_lt hdr 0 (by rw [hlen]; try omega)
        have e4 := unwrapU32_ok_of_lt hdr 4 (by rw [hlen]; try omega)
        have e8 := unwrapU32_ok_of_lt hdr 8 (by rw [hlen]; try omega)
        have e12 := unwrapU32_ok_of_lt hdr 12 (by rw [hlen]; try omega)
        simp only [sliceE_ok data (12 + k * 16) (12 + (k + 1) * 16) (by omega) hh,
          ← hdr_def, e0, e4, e8, e12]
        by_cases hreg : readU32 hdr 8 + readU32 hdr 12 ≤ data.length
        · simp only [sliceE_ok data (readU32 hdr 8) (readU32 hdr 8 + readU32 hdr 12)
            (Nat.le_add_right _ _) hreg]
          have hne : i ≠ k := by
            intro he
            rw [he, ← hdr_def] at hbad
            omega
          refine ih (k + 1) _ i (by omega) (by omega) hhdr hbad
        · simp only [sliceE_err data (readU32 hdr 8) (readU32 hdr 8 + readU32 hdr 12)
            (by omega)]
      · simp only [sliceE_err data (12 + k * 16) (12 + (k + 1) * 16) (by omega)]

/-- Claim C2 (amended): `parse` returns `Err(Invalid)` whenever the input
has fewer than 12 bytes; but when a table-directory entry declares a
region `offset + length` lying outside `data`, `parse` panics (an
out-of-bounds slice), it does not return `Err(Invalid)`.  Either way no
`Font` is returned. -/
theorem parse_short_invalid_bad_region_panics (data : List Nat) :
    (data.length < 12 → parse data = .ok (.error .Invalid)) ∧
    (∀ i, 12 ≤ data.length → i < readU16 data 4 →
      12 + (i + 1) * 16 ≤ data.length →
      data.length < readU32 (sliceP data (12 + i * 16) (12 + (i + 1) * 16)) 8 +
        readU32 (sliceP data (12 + i * 16) (12 + (i + 1) * 16)) 12 →
      parse data = .error .panic) := by
  constructor
  · intro h
    simp [parse, h]
  · intro i h12 hi hhdr hbad
    have h0 := unwrapU32_ok_of_lt data 0 (by omega)
    have h4 := unwrapU16_ok_of_lt data 4 (by omega)
    have h6 := unwrapU16_ok_of_lt data 6 (by omega)
    have h8 := unwrapU16_ok_of_lt data 8 (by omega)
    have h10 := unwrapU16_ok_of_lt data 10 (by omega)
    have hpt := parseTables_panics data (readU16 data 4) 0 [] i (Nat.zero_le i)
      (by omega) hhdr hbad
    simp only [parse]
    rw [if_neg (by omega)]
    simp only [h0, h4, h6, h8, h10, hpt]

theorem parse_bad_region_panics_concrete :
    parse badFont = .error .panic ∧ parse badFont ≠ .ok (.error .Invalid) := by
  have h : parse badFont = .error .panic := rfl
  exact ⟨h, fun hc => by rw [h] at hc; exact Except.noConfusion hc⟩

theorem parse_short_invalid_bad_region_panics_witness :
    parse [] = .ok (.error .Invalid) ∧ parse badFont = .error .panic := by
  refine ⟨(parse_short_invalid_bad_region_panics []).1 (by decide), ?_⟩
  exact (parse_short_invalid_bad_region_panics badFont).2 0 (by decide) (by decide)
    (by decide) (by decide)

/-- Claim C7 (amended): once the input is exhausted with an on-curve point
seen (possibly implied), the closing phase emits exactly one op — a
`LineTo` or `QuadTo` ending at the first on-curve point — except when
both a first and a last off-curve point are pending, in which case it
emits exactly two (a `QuadTo` to their midpoint, then a `QuadTo` ending
at the first on-curve point); afterwards the iterator yields `None`
forever (the op list is final). -/
theorem path_closing_ops (pts : List (Bool × Int × Int)) (fo : ℚ × ℚ)
    (hfo : (runPts initPathState pts).2.first_oncurve = some fo) :
    ∃ cl, closeOps (runPts initPathState pts).2 = .ok cl ∧
      pathFromPts pts = .ok ((runPts initPathState pts).1 ++ cl) ∧
      cl.length = (if (runPts initPathState pts).2.first_offcurve.isSome = true ∧
        (runPts initPathState pts).2.last_offcurve.isSome = true then 2 else 1) ∧
      cl.getLast?.map opEndpoint = some fo := by
  rcases hs1 : (runPts initPathState pts).2.first_offcurve with _ | fo1 <;>
    rcases hs2 : (runPts initPathState pts).2.last_offcurve with _ | lo
  · exact ⟨[.LineTo fo], by simp [closeOps, hs1, hs2, hfo],
      by simp [pathFromPts, closeOps, hs1, hs2, hfo],
      by simp [hs1, hs2], by simp [opEndpoint]⟩
  · exact ⟨[.QuadTo lo fo], by simp [closeOps, hs1, hs2, hfo],
      by simp [pathFromPts, closeOps, hs1, hs2, hfo],
      by simp [hs1, hs2], by simp [opEndpoint]⟩
  · exact ⟨[.QuadTo fo1 fo], by simp [closeOps, hs1, hs2, hfo],
      by simp [pathFromPts, closeOps, hs1, hs2, hfo],
      by simp [hs1, hs2], by simp [opEndpoint]⟩
  · exact ⟨[.QuadTo lo (lerp 0.5 lo fo1), .QuadTo fo1 fo],
      by simp [closeOps, hs1, hs2, hfo],
      by simp [pathFromPts, closeOps, hs1, hs2, hfo],
      by simp [hs1, hs2], by simp [opEndpoint]⟩

theorem path_closing_two_ops_concrete :
    (runPts initPathState ptsCx).2.first_oncurve = some ((1 : ℚ), (0 : ℚ)) ∧
    closeOps (runPts initPathState ptsCx).2 =
      .ok [.QuadTo (0, 2) (0, 1), .QuadTo (0, 0) (1, 0)] ∧
    ∀ cl, closeOps (runPts initPathState ptsCx).2 = .ok cl → cl.length = 2 := by
  have h1 : (runPts initPathState ptsCx).2 =
      ⟨some ((1 : ℚ), (0 : ℚ)), some ((0 : ℚ), (0 : ℚ)), some ((0 : ℚ), (2 : ℚ))⟩ := by
    simp only [ptsCx, runPts, initPathState, lerp]
    norm_num
  have h2 : closeOps (runPts initPathState ptsCx).2 =
      .ok [.QuadTo (0, 2) (0, 1), .QuadTo (0, 0) (1, 0)] := by
    rw [h1]
    simp only [closeOps, lerp]
    norm_num
  refine ⟨by rw [h1], h2, ?_⟩
  intro cl hcl
  rw [h2] at hcl
  injection hcl with h3
  rw [← h3]
  rfl

theorem path_closing_ops_witness :
    (runPts initPathState [(true, 0, 0), (true, 2, 0)]).2.first_oncurve =
      some ((0 : ℚ), (0 : ℚ)) ∧
    ∃ cl, closeOps (runPts initPathState [(true, 0, 0), (true, 2, 0)]).2 = .ok cl ∧
      pathFromPts [(true, 0, 0), (true, 2, 0)] =
        .ok ((runPts initPathState [(true, 0, 0), (true, 2, 0)]).1 ++ cl) ∧
      cl.length = (if (runPts initPathState
          [(true, 0, 0), (true, 2, 0)]).2.first_offcurve.isSome = true ∧
        (runPts initPathState
          [(true, 0, 0), (true, 2, 0)]).2.last_offcurve.isSome = true then 2 else 1) ∧
      cl.getLast?.map opEndpoint = some ((0 : ℚ), (0 : ℚ)) := by
  have hfo : (runPts initPathState [(true, 0, 0), (true, 2, 0)]).2.first_oncurve =
      some ((0 : ℚ), (0 : ℚ)) := by
    simp [runPts, initPathState]
  exact ⟨hfo, path_closing_ops [(true, 0, 0), (true, 2, 0)] ((0 : ℚ), (0 : ℚ)) hfo⟩

/-- Claim C1: the readers are claimed never to panic and to return `None`
whenever `offset + width > data.len()`.  The bounds checks are off by one:
at `off = len - width + 1` the guard passes but the last byte read is out
of bounds.  This theorem evaluates the code at such inputs: `get_u16`,
`get_i16` on a 1-byte buffer at offset 0 and `get_u32` on a 3-byte buffer
at offset 0 panic, where the claim requires `None`. -/
theorem get_readers_panic_at_boundary :
    get_u16 [0x12] 0 = .error .panic ∧
    get_i16 [0x12] 0 = .error .panic ∧
    get_u32 [0x12, 0x34, 0x56] 0 = .error .panic ∧
    (0 : Nat) + 2 > [(0x12 : Nat)].length ∧
    (0 : Nat) + 4 > [(0x12 : Nat), 0x34, 0x56].length := by
  exact ⟨rfl, rfl, rfl, by decide, by decide⟩
